import Mathlib

/-!
Shallow embedding of `EstimatePlaylistSize/MonteCarlo.cc`.

The C++ program has three parts:
* `calculate_log_probability(dd, num_balls)` — exact log-probability of a
  multiplicity-count profile `dd` under uniform sampling with replacement
  from `num_balls` items, computed with `lgamma` and `log`;
* `BallDrawer::draw_balls(dd, num_draws)` — incremental occupancy sampling:
  each draw takes a random value in `[0, num_balls)` from the generator and
  updates the profile by a cumulative-range scan;
* `monte_carlo_pvalue(ref_dd, num_balls, num_repeats, seed)` — Monte Carlo
  p-value estimate comparing the reference profile's log-probability against
  `num_repeats` simulated profiles, with a `1e-10` tie tolerance.

Doubles are modelled as exact reals (`lgamma x = Real.log (Real.Gamma x)`);
for the one input region where that reading is unfaithful — `log(0.0)` at
`num_balls = 0` — the returned expression is additionally evaluated over an
IEEE-style extended value domain (`FP`: finite reals, infinities, NaN).
The mt19937 generator composed with `uniform_int_distribution` is modelled
as a deterministic stream `g : ℕ → ℕ` of already-mapped random values; an
assertion failure (`assert(num_balls >= num_unique)`) is modelled as `none`.
-/

set_option autoImplicit false

namespace MonteCarlo

/-- The C `lgamma`: log of the Gamma function, over exact reals. -/
noncomputable def lgamma (x : ℝ) : ℝ := Real.log (Real.Gamma x)

/-- Accumulator `num_unique` of the loop in `calculate_log_probability`:
the sum of the profile's entries. -/
def profile_unique : List ℕ → ℕ
  | [] => 0
  | d :: rest => d + profile_unique rest

/-- Accumulator `num_draws` of the loop in `calculate_log_probability`
(also of the `num_draws` loop in `monte_carlo_pvalue`): `Σ dd[i-1] * i`,
where `m` is the multiplicity of the first listed entry. -/
def profile_draws : List ℕ → ℕ → ℕ
  | [], _ => 0
  | d :: rest, m => d * m + profile_draws rest (m + 1)

/-- Accumulator `log_denom` of the loop in `calculate_log_probability`:
`Σ lgamma(1 + dd[i-1]) + dd[i-1] * lgamma(1 + i)`. -/
noncomputable def profile_log_denom : List ℕ → ℕ → ℝ
  | [], _ => 0
  | d :: rest, m => (lgamma (1 + (d : ℝ)) + (d : ℝ) * lgamma (1 + (m : ℝ))) + profile_log_denom rest (m + 1)

/-- `calculate_log_probability(dd, num_balls)`: the assertion
`assert(num_balls >= num_unique)` is modelled by returning `none` when it
fails; otherwise the returned value is the C expression with `lgamma` and
`log` read over exact reals.  `1 + num_balls - num_unique` is the C unsigned
arithmetic, here `ℕ` arithmetic (exact because the assertion passed).
Caveat: Mathlib's `Real.log 0 = 0` is a junk value, so this exact-real
reading collapses the `log(0.0) = -inf` path taken at `num_balls = 0`; see
`calculate_log_probability_fp` below for the IEEE-faithful evaluation of the
returned expression, which the two models' agreement lemma restricts to
`num_balls ≥ 1`. -/
noncomputable def calculate_log_probability (dd : List ℕ) (num_balls : ℕ) : Option ℝ :=
  let num_unique := profile_unique dd
  let num_draws := profile_draws dd 1
  let log_denom := profile_log_denom dd 1
  if num_unique ≤ num_balls then
    some (lgamma (1 + (num_draws : ℝ)) - log_denom + lgamma (1 + (num_balls : ℝ))
      - lgamma (((1 + num_balls - num_unique : ℕ) : ℝ))
      - (num_draws : ℝ) * Real.log (num_balls : ℝ))
  else none

/-- The bin-scan loop of `draw_balls`: starting from cumulative sum `s`,
return `some bin` for the first bin with `ball < s + dd[0] + ... + dd[bin]`
(the `break`), or `none` when the loop runs off the end
(`bin == dd.size()`). -/
def find_bin : List ℕ → ℕ → ℕ → Option ℕ
  | [], _, _ => none
  | d :: rest, ball, s =>
      if ball < s + d then some 0
      else
        match find_bin rest ball (s + d) with
        | none => none
        | some b => some (b + 1)

/-- `++dd[bin]` on the profile list (in-range index assumed). -/
def inc_at : List ℕ → ℕ → List ℕ
  | [], _ => []
  | d :: rest, 0 => (d + 1) :: rest
  | d :: rest, b + 1 => d :: inc_at rest b

/-- `--dd[bin]` on the profile list (in-range index assumed). -/
def dec_at : List ℕ → ℕ → List ℕ
  | [], _ => []
  | d :: rest, 0 => (d - 1) :: rest
  | d :: rest, b + 1 => d :: dec_at rest b

/-- One iteration of the draw loop in `draw_balls`, for random value `ball`:
scan for the bin; if the scan fell off the end, target bin 0 with no
decrement; otherwise decrement the found bin and target the next one;
`dd.resize(bin + 1)` (appending one zero) when the target bin equals the
current size; finally `++dd[bin]`. -/
def apply_draw (dd : List ℕ) (ball : ℕ) : List ℕ :=
  match find_bin dd ball 0 with
  | none =>
      let dd2 := if 0 = dd.length then dd ++ [0] else dd
      inc_at dd2 0
  | some b =>
      let dd1 := dec_at dd b
      let dd2 := if b + 1 = dd1.length then dd1 ++ [0] else dd1
      inc_at dd2 (b + 1)

/-- Advance the random stream by one value. -/
def shift (g : ℕ → ℕ) : ℕ → ℕ := fun i => g (i + 1)

/-- The draw loop of `draw_balls`, threading the random stream. -/
def draw_balls_loop (g : ℕ → ℕ) (dd : List ℕ) : ℕ → List ℕ × (ℕ → ℕ)
  | 0 => (dd, g)
  | n + 1 => draw_balls_loop (shift g) (apply_draw dd (g 0)) n

/-- `BallDrawer::draw_balls(dd, num_draws)`: clears the profile
(`dd.clear()`, so the loop starts from the empty profile) and performs
`num_draws` draws, returning the profile and the advanced stream. -/
def draw_balls (g : ℕ → ℕ) (num_draws : ℕ) : List ℕ × (ℕ → ℕ) :=
  draw_balls_loop g [] num_draws

/-- The trial loop shared by `monte_carlo` and `monte_carlo_pvalue`:
the list of the `r` profiles produced by successive `draw_balls` calls on
one drawer (each trial resumes the stream where the previous one left it). -/
def run_trials (g : ℕ → ℕ) (num_draws : ℕ) : ℕ → List (List ℕ) × (ℕ → ℕ)
  | 0 => ([], g)
  | r + 1 =>
      let t := draw_balls g num_draws
      let rest := run_trials t.2 num_draws r
      (t.1 :: rest.1, rest.2)

/-- The scoring loop of `monte_carlo_pvalue`: each trial draws a profile,
computes its log-probability (propagating an assertion failure as `none`),
and adds `0.5` on a `1e-10` tie, `1.0` when the reference is more probable,
nothing otherwise. -/
noncomputable def pvalue_loop (num_balls num_draws : ℕ) (ref_lp : ℝ) (g : ℕ → ℕ) (score : ℝ) :
    ℕ → Option (ℝ × (ℕ → ℕ))
  | 0 => some (score, g)
  | r + 1 =>
      let t := draw_balls g num_draws
      match calculate_log_probability t.1 num_balls with
      | none => none
      | some lp =>
          pvalue_loop num_balls num_draws ref_lp t.2
            (score + (if |ref_lp - lp| < 1e-10 then 0.5 else if ref_lp - lp > 0 then 1 else 0)) r

/-- `monte_carlo_pvalue(ref_dd, num_balls, num_repeats, seed)`: reference
log-probability, `num_draws` derived from the reference profile, the scoring
loop, and the final `score / num_repeats`. -/
noncomputable def monte_carlo_pvalue (ref_dd : List ℕ) (num_balls num_repeats : ℕ)
    (g : ℕ → ℕ) : Option ℝ :=
  match calculate_log_probability ref_dd num_balls with
  | none => none
  | some ref_lp =>
      let num_draws := profile_draws ref_dd 1
      match pvalue_loop num_balls num_draws ref_lp g 0 num_repeats with
      | none => none
      | some sg => some (sg.1 / (num_repeats : ℝ))

/-- Bounds-checked `++dd[bin]`: `none` on an out-of-range vector access. -/
def inc_at_checked (dd : List ℕ) (b : ℕ) : Option (List ℕ) :=
  if b < dd.length then some (inc_at dd b) else none

/-- Bounds-checked `--dd[bin]`: `none` on an out-of-range vector access. -/
def dec_at_checked (dd : List ℕ) (b : ℕ) : Option (List ℕ) :=
  if b < dd.length then some (dec_at dd b) else none

/-- `apply_draw` with every `dd[bin]` write access bounds-checked (the scan
reads are guarded by the loop condition `bin < dd.size()` itself, which the
structural recursion of `find_bin` reflects). -/
def apply_draw_checked (dd : List ℕ) (ball : ℕ) : Option (List ℕ) :=
  match find_bin dd ball 0 with
  | none =>
      let dd2 := if 0 = dd.length then dd ++ [0] else dd
      inc_at_checked dd2 0
  | some b =>
      match dec_at_checked dd b with
      | none => none
      | some dd1 =>
          let dd2 := if b + 1 = dd1.length then dd1 ++ [0] else dd1
          inc_at_checked dd2 (b + 1)

/-- The draw loop with bounds-checked accesses. -/
def draw_balls_checked_loop (g : ℕ → ℕ) (dd : List ℕ) : ℕ → Option (List ℕ × (ℕ → ℕ))
  | 0 => some (dd, g)
  | n + 1 =>
      match apply_draw_checked dd (g 0) with
      | none => none
      | some dd2 => draw_balls_checked_loop (shift g) dd2 n

/-- `draw_balls` with bounds-checked accesses. -/
def draw_balls_checked (g : ℕ → ℕ) (num_draws : ℕ) : Option (List ℕ × (ℕ → ℕ)) :=
  draw_balls_checked_loop g [] num_draws

/-! ### Spec-side definitions (written from the specification's words) -/

/-- Spec-side `U`: sum over `m` of `dd[m-1]`, as a position-indexed sum. -/
def spec_U (dd : List ℕ) : ℕ := ∑ m ∈ Finset.range dd.length, dd.getD m 0

/-- Spec-side `N`: sum over `m` of `m·dd[m-1]`, as a position-indexed sum. -/
def spec_N (dd : List ℕ) : ℕ := ∑ m ∈ Finset.range dd.length, (m + 1) * dd.getD m 0

/-- Spec-side denominator sum: `Σ_m [lgamma(1+dd[m-1]) + dd[m-1]·lgamma(1+m)]`. -/
noncomputable def spec_log_denom (dd : List ℕ) : ℝ :=
  ∑ m ∈ Finset.range dd.length,
    (lgamma (1 + (dd.getD m 0 : ℝ)) + (dd.getD m 0 : ℝ) * lgamma (1 + ((m : ℝ) + 1)))

/-- Spec-side closed formula for the log-probability:
`lgamma(1+N) − Σ_m [lgamma(1+dd[m-1]) + dd[m-1]·lgamma(1+m)]
 + lgamma(1+M) − lgamma(1+M−U) − N·log M`. -/
noncomputable def spec_formula (dd : List ℕ) (M : ℕ) : ℝ :=
  lgamma (1 + (spec_N dd : ℝ)) - spec_log_denom dd + lgamma (1 + (M : ℝ))
    - lgamma (1 + (M : ℝ) - (spec_U dd : ℝ)) - (spec_N dd : ℝ) * Real.log (M : ℝ)

/-- Spec-side step for a draw that hit a never-drawn item: increment `dd[0]`
(extending the empty profile), decrement nothing. -/
def spec_new_item (dd : List ℕ) : List ℕ :=
  match dd with
  | [] => [1]
  | d :: rest => (d + 1) :: rest

/-- Spec-side step for a draw that hit an item in group `bin`: decrement
`dd[bin]`, increment `dd[bin+1]`, extending the profile by exactly one
position when `bin+1` equals its current length. -/
def spec_move (dd : List ℕ) (bin : ℕ) : List ℕ :=
  let dd1 := dd.set bin (dd.getD bin 0 - 1)
  if bin + 1 = dd.length then dd1 ++ [1]
  else dd1.set (bin + 1) (dd1.getD (bin + 1) 0 + 1)

/-- Spec-side per-trial contribution to the p-value accumulator. -/
noncomputable def spec_trial_score (ref_lp sim_lp : ℝ) : ℝ :=
  if |ref_lp - sim_lp| < 1e-10 then 0.5 else if 0 < ref_lp - sim_lp then 1 else 0

/-! ### IEEE-style extended values

`calculate_log_probability` above reads the doubles as exact reals, which
silently collapses the `log(0.0) = -inf` path of the C `log` (Mathlib's
`Real.log 0` is the junk value `0`).  To keep that path, the returned
expression is re-evaluated below over an extended value domain with
infinities and NaN, following the IEEE rules the C program runs under
(`0 * ±inf = NaN`, NaN propagates through every operation). -/

/-- An IEEE-style double value: a finite real, an infinity, or NaN. -/
inductive FP where
  | fin : ℝ → FP
  | pinf : FP
  | ninf : FP
  | nan : FP

/-- IEEE addition on extended values. -/
def FP.add : FP → FP → FP
  | FP.nan, _ => FP.nan
  | _, FP.nan => FP.nan
  | FP.fin a, FP.fin b => FP.fin (a + b)
  | FP.fin _, FP.pinf => FP.pinf
  | FP.fin _, FP.ninf => FP.ninf
  | FP.pinf, FP.fin _ => FP.pinf
  | FP.ninf, FP.fin _ => FP.ninf
  | FP.pinf, FP.pinf => FP.pinf
  | FP.ninf, FP.ninf => FP.ninf
  | FP.pinf, FP.ninf => FP.nan
  | FP.ninf, FP.pinf => FP.nan

/-- IEEE negation on extended values. -/
def FP.neg : FP → FP
  | FP.nan => FP.nan
  | FP.fin a => FP.fin (-a)
  | FP.pinf => FP.ninf
  | FP.ninf => FP.pinf

/-- IEEE subtraction on extended values. -/
def FP.sub (x y : FP) : FP := FP.add x (FP.neg y)

/-- IEEE multiplication on extended values: `0 * ±inf = NaN`. -/
noncomputable def FP.mul : FP → FP → FP
  | FP.nan, _ => FP.nan
  | _, FP.nan => FP.nan
  | FP.fin a, FP.fin b => FP.fin (a * b)
  | FP.fin a, FP.pinf => if a = 0 then FP.nan else if 0 < a then FP.pinf else FP.ninf
  | FP.fin a, FP.ninf => if a = 0 then FP.nan else if 0 < a then FP.ninf else FP.pinf
  | FP.pinf, FP.fin a => if a = 0 then FP.nan else if 0 < a then FP.pinf else FP.ninf
  | FP.ninf, FP.fin a => if a = 0 then FP.nan else if 0 < a then FP.ninf else FP.pinf
  | FP.pinf, FP.pinf => FP.pinf
  | FP.pinf, FP.ninf => FP.ninf
  | FP.ninf, FP.pinf => FP.ninf
  | FP.ninf, FP.ninf => FP.pinf

/-- The C `log` over extended values: `log(0.0) = -inf`, negative arguments
give NaN, positive arguments the finite real logarithm. -/
noncomputable def clog (x : ℝ) : FP :=
  if 0 < x then FP.fin (Real.log x) else if x = 0 then FP.ninf else FP.nan

/-- The C `lgamma` over extended values: finite for positive arguments
(every argument in this program is `1 + (a nonnegative count) ≥ 1`),
`+inf` at the poles `0, -1, -2, …` approached here only by `x = 0`. -/
noncomputable def clgamma (x : ℝ) : FP :=
  if 0 < x then FP.fin (lgamma x) else FP.pinf

/-- `calculate_log_probability` with the returned C expression evaluated in
IEEE-style extended-value semantics, keeping the `log(0) = -inf` path: the
same accumulator loop and assertion, then
`lgamma(1+N) - log_denom + lgamma(1+M) - lgamma(1+M-U) - N·log(M)` computed
left-associatively with `FP` arithmetic (the accumulated `log_denom` terms
all have arguments `≥ 1`, hence are finite reals). -/
noncomputable def calculate_log_probability_fp (dd : List ℕ) (num_balls : ℕ) : Option FP :=
  let num_unique := profile_unique dd
  let num_draws := profile_draws dd 1
  let log_denom := profile_log_denom dd 1
  if num_unique ≤ num_balls then
    some (FP.sub
      (FP.sub
        (FP.add (FP.sub (clgamma (1 + (num_draws : ℝ))) (FP.fin log_denom))
          (clgamma (1 + (num_balls : ℝ))))
        (clgamma (((1 + num_balls - num_unique : ℕ) : ℝ))))
      (FP.mul (FP.fin (num_draws : ℝ)) (clog (num_balls : ℝ))))
  else none

/-! ### Profile accumulator lemmas -/

theorem profile_unique_eq_sum (dd : List ℕ) : profile_unique dd = dd.sum := by
  induction dd with
  | nil => rfl
  | cons d rest ih => simp [profile_unique, ih]

theorem profile_draws_eq_spec (dd : List ℕ) : ∀ m : ℕ,
    profile_draws dd m = ∑ i ∈ Finset.range dd.length, (m + i) * dd.getD i 0 := by
  induction dd with
  | nil => intro m; simp [profile_draws]
  | cons d rest ih =>
    intro m
    rw [profile_draws, ih (m + 1), List.length_cons, Finset.sum_range_succ']
    simp only [List.getD_cons_succ, List.getD_cons_zero, Nat.add_zero]
    rw [Nat.add_comm (d * m)]
    congr 1
    · exact Finset.sum_congr rfl fun i _ => by ring
    · ring

theorem spec_U_eq (dd : List ℕ) : spec_U dd = profile_unique dd := by
  induction dd with
  | nil => rfl
  | cons d rest ih =>
    rw [spec_U, List.length_cons, Finset.sum_range_succ']
    simp only [List.getD_cons_succ, List.getD_cons_zero]
    rw [profile_unique, ← ih, spec_U, Nat.add_comm]

theorem spec_N_eq (dd : List ℕ) : spec_N dd = profile_draws dd 1 := by
  rw [spec_N, profile_draws_eq_spec dd 1]
  exact Finset.sum_congr rfl fun i _ => by ring

theorem profile_log_denom_eq_spec (dd : List ℕ) : ∀ m : ℕ,
    profile_log_denom dd m = ∑ i ∈ Finset.range dd.length,
      (lgamma (1 + (dd.getD i 0 : ℝ)) + (dd.getD i 0 : ℝ) * lgamma (1 + ((m : ℝ) + i))) := by
  induction dd with
  | nil => intro m; simp [profile_log_denom]
  | cons d rest ih =>
    intro m
    rw [profile_log_denom, ih (m + 1), List.length_cons, Finset.sum_range_succ']
    simp only [List.getD_cons_succ, List.getD_cons_zero, Nat.cast_add, Nat.cast_one,
      Nat.cast_zero, add_zero]
    rw [add_comm]
    congr 1
    exact Finset.sum_congr rfl fun i _ => by ring_nf

theorem spec_log_denom_eq (dd : List ℕ) : spec_log_denom dd = profile_log_denom dd 1 := by
  rw [spec_log_denom, profile_log_denom_eq_spec dd 1]
  exact Finset.sum_congr rfl fun i _ => by ring_nf

/-! ### Bin-scan lemmas -/

theorem find_bin_none_iff (dd : List ℕ) : ∀ ball s : ℕ, s ≤ ball →
    (find_bin dd ball s = none ↔ s + dd.sum ≤ ball) := by
  induction dd with
  | nil => intro ball s hs; simpa [find_bin] using hs
  | cons d rest ih =>
    intro ball s hs
    rw [find_bin, List.sum_cons]
    by_cases h : ball < s + d
    · simp only [if_pos h]
      constructor
      · intro hc; exact absurd hc (Option.some_ne_none 0)
      · intro hc; omega
    · simp only [if_neg h]
      have hs2 : s + d ≤ ball := Nat.le_of_not_lt h
      cases hfb : find_bin rest ball (s + d) with
      | none =>
        have hsum := (ih ball (s + d) hs2).mp hfb
        exact ⟨fun _ => by omega, fun _ => rfl⟩
      | some b =>
        constructor
        · intro hc; exact absurd hc (Option.some_ne_none (b + 1))
        · intro hc
          have hnone : find_bin rest ball (s + d) = none :=
            (ih ball (s + d) hs2).mpr (by omega)
          rw [hfb] at hnone
          exact absurd hnone (Option.some_ne_none b)

theorem find_bin_some (dd : List ℕ) : ∀ ball s b : ℕ, s ≤ ball →
    find_bin dd ball s = some b →
    b < dd.length ∧ s + (dd.take b).sum ≤ ball ∧ ball < s + (dd.take (b + 1)).sum := by
  induction dd with
  | nil => intro ball s b _ hc; exact absurd hc (by simp [find_bin])
  | cons d rest ih =>
    intro ball s b hs hfb
    rw [find_bin] at hfb
    by_cases h : ball < s + d
    · rw [if_pos h] at hfb
      injection hfb with hb
      subst hb
      refine ⟨by simp, by simpa using hs, ?_⟩
      simpa [List.take_succ_cons] using h
    · rw [if_neg h] at hfb
      have hs2 : s + d ≤ ball := Nat.le_of_not_lt h
      cases hfb2 : find_bin rest ball (s + d) with
      | none => rw [hfb2] at hfb; exact absurd hfb (by simp)
      | some b2 =>
        rw [hfb2] at hfb
        injection hfb with hb
        subst hb
        obtain ⟨h1, h2, h3⟩ := ih ball (s + d) b2 hs2 hfb2
        refine ⟨by simpa using Nat.succ_lt_succ h1, ?_, ?_⟩
        · rw [List.take_succ_cons, List.sum_cons]; omega
        · rw [List.take_succ_cons, List.sum_cons]; omega

theorem sum_take_succ_getD (dd : List ℕ) : ∀ b : ℕ, b < dd.length →
    (dd.take (b + 1)).sum = (dd.take b).sum + dd.getD b 0 := by
  induction dd with
  | nil => intro b hb; exact absurd hb (by simp)
  | cons d rest ih =>
    intro b hb
    cases b with
    | zero => simp
    | succ b2 =>
      rw [List.take_succ_cons, List.take_succ_cons, List.sum_cons, List.sum_cons,
        List.getD_cons_succ, ih b2 (by simpa using hb)]
      omega

theorem find_bin_entry_pos (dd : List ℕ) (ball b : ℕ)
    (hfb : find_bin dd ball 0 = some b) : 1 ≤ dd.getD b 0 := by
  obtain ⟨h1, h2, h3⟩ := find_bin_some dd ball 0 b (Nat.zero_le ball) hfb
  rw [sum_take_succ_getD dd b h1] at h3
  omega

/-! ### Increment / decrement lemmas -/

theorem inc_at_length (dd : List ℕ) : ∀ b : ℕ, (inc_at dd b).length = dd.length := by
  induction dd with
  | nil => intro b; rfl
  | cons d rest ih =>
    intro b
    cases b with
    | zero => rfl
    | succ b2 => simp [inc_at, ih b2]

theorem dec_at_length (dd : List ℕ) : ∀ b : ℕ, (dec_at dd b).length = dd.length := by
  induction dd with
  | nil => intro b; rfl
  | cons d rest ih =>
    intro b
    cases b with
    | zero => rfl
    | succ b2 => simp [dec_at, ih b2]

theorem inc_at_unique (dd : List ℕ) : ∀ b : ℕ, b < dd.length →
    profile_unique (inc_at dd b) = profile_unique dd + 1 := by
  induction dd with
  | nil => intro b hb; exact absurd hb (by simp)
  | cons d rest ih =>
    intro b hb
    cases b with
    | zero => simp [inc_at, profile_unique]; omega
    | succ b2 =>
      rw [inc_at, profile_unique, profile_unique, ih b2 (by simpa using hb)]
      omega

theorem dec_at_unique (dd : List ℕ) : ∀ b : ℕ, b < dd.length → 1 ≤ dd.getD b 0 →
    profile_unique (dec_at dd b) + 1 = profile_unique dd := by
  induction dd with
  | nil => intro b hb; exact absurd hb (by simp)
  | cons d rest ih =>
    intro b hb hd
    cases b with
    | zero =>
      rw [List.getD_cons_zero] at hd
      simp [dec_at, profile_unique]; omega
    | succ b2 =>
      rw [List.getD_cons_succ] at hd
      rw [dec_at, profile_unique, profile_unique, ← ih b2 (by simpa using hb) hd]
      omega

theorem inc_at_draws (dd : List ℕ) : ∀ b m : ℕ, b < dd.length →
    profile_draws (inc_at dd b) m = profile_draws dd m + (m + b) := by
  induction dd with
  | nil => intro b m hb; exact absurd hb (by simp)
  | cons d rest ih =>
    intro b m hb
    cases b with
    | zero => simp [inc_at, profile_draws]; ring
    | succ b2 =>
      rw [inc_at, profile_draws, profile_draws, ih b2 (m + 1) (by simpa using hb)]
      ring

theorem dec_at_draws (dd : List ℕ) : ∀ b m : ℕ, b < dd.length → 1 ≤ dd.getD b 0 →
    profile_draws (dec_at dd b) m + (m + b) = profile_draws dd m := by
  induction dd with
  | nil => intro b m hb; exact absurd hb (by simp)
  | cons d rest ih =>
    intro b m hb hd
    cases b with
    | zero =>
      rw [List.getD_cons_zero] at hd
      rw [dec_at, profile_draws, profile_draws]
      have hdm : (d - 1) * m + m = d * m := by
        cases d with
        | zero => exact absurd hd (by omega)
        | succ d2 => simp only [Nat.add_sub_cancel]; ring
      omega
    | succ b2 =>
      rw [List.getD_cons_succ] at hd
      rw [dec_at, profile_draws, profile_draws,
        ← ih b2 (m + 1) (by simpa using hb) hd]
      ring

theorem profile_unique_append_zero (dd : List ℕ) :
    profile_unique (dd ++ [0]) = profile_unique dd := by
  induction dd with
  | nil => rfl
  | cons d rest ih => rw [List.cons_append, profile_unique, profile_unique, ih]

theorem profile_draws_append_zero (dd : List ℕ) : ∀ m : ℕ,
    profile_draws (dd ++ [0]) m = profile_draws dd m := by
  induction dd with
  | nil => intro m; simp [profile_draws]
  | cons d rest ih =>
    intro m
    rw [List.cons_append, profile_draws, profile_draws, ih (m + 1)]

/-! ### Single-draw step lemmas -/

theorem apply_draw_draws (dd : List ℕ) (ball : ℕ) :
    profile_draws (apply_draw dd ball) 1 = profile_draws dd 1 + 1 := by
  cases hfb : find_bin dd ball 0 with
  | none =>
    simp only [apply_draw, hfb]
    by_cases hlen : 0 = dd.length
    · have hdd : dd = [] := List.length_eq_zero.mp hlen.symm
      subst hdd
      simp [profile_draws, inc_at]
    · rw [if_neg hlen, inc_at_draws dd 0 1 (by omega)]
  | some b =>
    simp only [apply_draw, hfb]
    obtain ⟨hblen, h2, h3⟩ := find_bin_some dd ball 0 b (Nat.zero_le ball) hfb
    have hpos : 1 ≤ dd.getD b 0 := find_bin_entry_pos dd ball b hfb
    have hdec_len : (dec_at dd b).length = dd.length := dec_at_length dd b
    have hdec : profile_draws (dec_at dd b) 1 + (1 + b) = profile_draws dd 1 :=
      dec_at_draws dd b 1 hblen hpos
    by_cases hlen : b + 1 = (dec_at dd b).length
    · rw [if_pos hlen]
      have hlt : b + 1 < (dec_at dd b ++ [0]).length := by
        rw [List.length_append, hdec_len]
        simp
        omega
      rw [inc_at_draws _ (b + 1) 1 hlt, profile_draws_append_zero]
      omega
    · rw [if_neg hlen]
      have hlt : b + 1 < (dec_at dd b).length := by omega
      rw [inc_at_draws _ (b + 1) 1 hlt]
      omega

theorem apply_draw_unique_le {M : ℕ} (dd : List ℕ) (ball : ℕ) (hb : ball < M)
    (hU : profile_unique dd ≤ M) : profile_unique (apply_draw dd ball) ≤ M := by
  cases hfb : find_bin dd ball 0 with
  | none =>
    have hsum : dd.sum ≤ ball := by
      have := (find_bin_none_iff dd ball 0 (Nat.zero_le ball)).mp hfb
      omega
    have hUlt : profile_unique dd ≤ ball := by rw [profile_unique_eq_sum]; exact hsum
    simp only [apply_draw, hfb]
    by_cases hlen : 0 = dd.length
    · have hdd : dd = [] := List.length_eq_zero.mp hlen.symm
      subst hdd
      simp [inc_at, profile_unique]
      omega
    · rw [if_neg hlen, inc_at_unique dd 0 (by omega)]
      omega
  | some b =>
    simp only [apply_draw, hfb]
    obtain ⟨hblen, h2, h3⟩ := find_bin_some dd ball 0 b (Nat.zero_le ball) hfb
    have hpos : 1 ≤ dd.getD b 0 := find_bin_entry_pos dd ball b hfb
    have hdec_len : (dec_at dd b).length = dd.length := dec_at_length dd b
    have hdec : profile_unique (dec_at dd b) + 1 = profile_unique dd :=
      dec_at_unique dd b hblen hpos
    by_cases hlen : b + 1 = (dec_at dd b).length
    · rw [if_pos hlen]
      have hlt : b + 1 < (dec_at dd b ++ [0]).length := by
        rw [List.length_append, hdec_len]
        simp
        omega
      rw [inc_at_unique _ (b + 1) hlt, profile_unique_append_zero]
      omega
    · rw [if_neg hlen]
      have hlt : b + 1 < (dec_at dd b).length := by omega
      rw [inc_at_unique _ (b + 1) hlt]
      omega

/-! ### Draw-loop lemmas -/

theorem draw_balls_loop_snd (n : ℕ) : ∀ (g : ℕ → ℕ) (dd : List ℕ) (i : ℕ),
    (draw_balls_loop g dd n).2 i = g (i + n) := by
  induction n with
  | zero => intro g dd i; rfl
  | succ n2 ih =>
    intro g dd i
    rw [draw_balls_loop, ih]
    rfl

theorem draw_balls_loop_draws (n : ℕ) : ∀ (g : ℕ → ℕ) (dd : List ℕ),
    profile_draws (draw_balls_loop g dd n).1 1 = profile_draws dd 1 + n := by
  induction n with
  | zero => intro g dd; rfl
  | succ n2 ih =>
    intro g dd
    rw [draw_balls_loop, ih, apply_draw_draws]
    omega

theorem draw_balls_loop_unique (M : ℕ) (n : ℕ) : ∀ (g : ℕ → ℕ) (dd : List ℕ),
    (∀ i, g i < M) → profile_unique dd ≤ M →
    profile_unique (draw_balls_loop g dd n).1 ≤ M := by
  induction n with
  | zero => intro g dd _ hU; exact hU
  | succ n2 ih =>
    intro g dd hg hU
    rw [draw_balls_loop]
    exact ih (shift g) _ (fun i => hg (i + 1)) (apply_draw_unique_le dd (g 0) (hg 0) hU)

theorem draw_balls_draws (g : ℕ → ℕ) (n : ℕ) :
    profile_draws (draw_balls g n).1 1 = n := by
  rw [draw_balls, draw_balls_loop_draws]
  simp [profile_draws]

theorem draw_balls_unique {M : ℕ} (g : ℕ → ℕ) (n : ℕ) (hg : ∀ i, g i < M) :
    profile_unique (draw_balls g n).1 ≤ M :=
  draw_balls_loop_unique M n g [] hg (Nat.zero_le M)

theorem draw_balls_snd (g : ℕ → ℕ) (n : ℕ) (i : ℕ) :
    (draw_balls g n).2 i = g (i + n) :=
  draw_balls_loop_snd n g [] i

/-! ### Log-probability unfolding lemmas -/

theorem calculate_eq_some {dd : List ℕ} {M : ℕ} (h : profile_unique dd ≤ M) :
    calculate_log_probability dd M =
      some (lgamma (1 + (profile_draws dd 1 : ℝ)) - profile_log_denom dd 1
        + lgamma (1 + (M : ℝ)) - lgamma (((1 + M - profile_unique dd : ℕ) : ℝ))
        - (profile_draws dd 1 : ℝ) * Real.log (M : ℝ)) := by
  simp only [calculate_log_probability]
  rw [if_pos h]

theorem calculate_eq_none {dd : List ℕ} {M : ℕ} (h : M < profile_unique dd) :
    calculate_log_probability dd M = none := by
  simp only [calculate_log_probability]
  rw [if_neg (by omega)]

/-! ### Extended-value reduction lemmas -/

theorem FP_add_fin (a b : ℝ) : FP.add (FP.fin a) (FP.fin b) = FP.fin (a + b) := rfl

theorem FP_sub_fin (a b : ℝ) : FP.sub (FP.fin a) (FP.fin b) = FP.fin (a - b) := by
  rw [FP.sub, FP.neg, FP_add_fin, sub_eq_add_neg]

theorem FP_mul_fin (a b : ℝ) : FP.mul (FP.fin a) (FP.fin b) = FP.fin (a * b) := rfl

theorem FP_sub_nan_fin (a : ℝ) : FP.sub (FP.fin a) FP.nan = FP.nan := rfl

theorem clgamma_pos {x : ℝ} (hx : 0 < x) : clgamma x = FP.fin (lgamma x) := by
  rw [clgamma, if_pos hx]

theorem clog_pos {x : ℝ} (hx : 0 < x) : clog x = FP.fin (Real.log x) := by
  rw [clog, if_pos hx]

theorem clog_zero : clog 0 = FP.ninf := by
  rw [clog, if_neg (lt_irrefl 0), if_pos rfl]

theorem FP_mul_zero_ninf : FP.mul (FP.fin 0) FP.ninf = FP.nan := by
  rw [FP.mul, if_pos rfl]

/-- Where no infinity arises — every `num_balls ≥ 1` — the IEEE-style
evaluation agrees with the exact-real model. -/
theorem calculate_fp_eq_map {dd : List ℕ} {M : ℕ} (hM : 1 ≤ M) :
    calculate_log_probability_fp dd M = (calculate_log_probability dd M).map FP.fin := by
  by_cases hU : profile_unique dd ≤ M
  · rw [calculate_eq_some hU, Option.map_some']
    simp only [calculate_log_probability_fp]
    rw [if_pos hU]
    rw [clgamma_pos (by positivity), clgamma_pos (by positivity),
      clgamma_pos (Nat.cast_pos.mpr (by omega) : (0 : ℝ) < ((1 + M - profile_unique dd : ℕ) : ℝ)),
      clog_pos (Nat.cast_pos.mpr (by omega)),
      FP_sub_fin, FP_add_fin, FP_mul_fin, FP_sub_fin, FP_sub_fin]
  · rw [calculate_eq_none (by omega), Option.map_none']
    simp only [calculate_log_probability_fp]
    rw [if_neg hU]

/-- At `num_balls = 0` the empty profile passes the assertion but the
returned expression multiplies `num_draws = 0` by `log(0) = -inf`,
yielding NaN. -/
theorem calculate_fp_nil_zero : calculate_log_probability_fp [] 0 = some FP.nan := by
  simp only [calculate_log_probability_fp, profile_unique, profile_draws, profile_log_denom]
  rw [if_pos (le_refl 0)]
  rw [Nat.cast_zero, clog_zero, FP_mul_zero_ninf]
  rw [clgamma_pos (by norm_num), clgamma_pos (by norm_num),
    FP_sub_fin, FP_add_fin, FP_sub_fin, FP_sub_nan_fin]

/-! ### Trial-loop lemmas -/

theorem run_trials_length (nd : ℕ) : ∀ (r : ℕ) (g : ℕ → ℕ),
    ((run_trials g nd r).1).length = r := by
  intro r
  induction r with
  | zero => intro g; rfl
  | succ r2 ih =>
    intro g
    simp only [run_trials, List.length_cons, ih]

theorem run_trials_mem_unique {M : ℕ} (nd : ℕ) : ∀ (r : ℕ) (g : ℕ → ℕ),
    (∀ i, g i < M) → ∀ dd ∈ (run_trials g nd r).1, profile_unique dd ≤ M := by
  intro r
  induction r with
  | zero =>
    intro g _ dd hdd
    exact absurd hdd (by simp [run_trials])
  | succ r2 ih =>
    intro g hg dd hdd
    simp only [run_trials, List.mem_cons] at hdd
    rcases hdd with hdd | hdd
    · rw [hdd]; exact draw_balls_unique g nd hg
    · exact ih (draw_balls g nd).2 (fun i => by rw [draw_balls_snd]; exact hg _) dd hdd

theorem trial_score_bounds (x y : ℝ) :
    0 ≤ (if |x - y| < 1e-10 then (0.5 : ℝ) else if x - y > 0 then 1 else 0) ∧
      (if |x - y| < 1e-10 then (0.5 : ℝ) else if x - y > 0 then 1 else 0) ≤ 1 := by
  constructor <;> split_ifs <;> norm_num

theorem pvalue_loop_spec {M : ℕ} (nd : ℕ) (ref_lp : ℝ) : ∀ (r : ℕ) (g : ℕ → ℕ) (score : ℝ),
    (∀ i, g i < M) →
    pvalue_loop M nd ref_lp g score r =
      some (score + (((run_trials g nd r).1).map
          (fun dd => spec_trial_score ref_lp ((calculate_log_probability dd M).getD 0))).sum,
        (run_trials g nd r).2) := by
  intro r
  induction r with
  | zero => intro g score _; simp [pvalue_loop, run_trials]
  | succ r2 ih =>
    intro g score hg
    have hU : profile_unique (draw_balls g nd).1 ≤ M := draw_balls_unique g nd hg
    have hg2 : ∀ i, (draw_balls g nd).2 i < M := fun i => by
      rw [draw_balls_snd]; exact hg _
    simp only [pvalue_loop, run_trials, calculate_eq_some hU, List.map_cons, List.sum_cons,
      Option.getD_some, spec_trial_score]
    rw [ih (draw_balls g nd).2 _ hg2]
    simp only [calculate_eq_some hU, Option.getD_some, spec_trial_score, gt_iff_lt]
    rw [add_assoc]

theorem pvalue_loop_bounds {M : ℕ} (nd : ℕ) (ref_lp : ℝ) : ∀ (r : ℕ) (g : ℕ → ℕ) (score : ℝ),
    (∀ i, g i < M) →
    ∃ s g2, pvalue_loop M nd ref_lp g score r = some (s, g2) ∧
      score ≤ s ∧ s ≤ score + (r : ℝ) := by
  intro r
  induction r with
  | zero =>
    intro g score _
    exact ⟨score, g, rfl, le_refl score, by simp⟩
  | succ r2 ih =>
    intro g score hg
    have hU : profile_unique (draw_balls g nd).1 ≤ M := draw_balls_unique g nd hg
    have hg2 : ∀ i, (draw_balls g nd).2 i < M := fun i => by
      rw [draw_balls_snd]; exact hg _
    cases hcalc : calculate_log_probability (draw_balls g nd).1 M with
    | none =>
      have hsome := calculate_eq_some hU
      rw [hcalc] at hsome
      exact absurd hsome (by simp)
    | some lp =>
      simp only [pvalue_loop, hcalc]
      obtain ⟨s, g2, heq, hlo, hhi⟩ := ih (draw_balls g nd).2
        (score + (if |ref_lp - lp| < 1e-10 then 0.5 else if ref_lp - lp > 0 then 1 else 0)) hg2
      refine ⟨s, g2, heq, ?_, ?_⟩
      · have h0 := (trial_score_bounds ref_lp lp).1
        linarith
      · have h1 := (trial_score_bounds ref_lp lp).2
        push_cast
        linarith

theorem map_sum_all_half {α : Type} (f : α → ℝ) : ∀ l : List α, (∀ x ∈ l, f x = 0.5) →
    (l.map f).sum = (l.length : ℝ) * 0.5 := by
  intro l
  induction l with
  | nil => intro _; simp
  | cons a rest ih =>
    intro h
    rw [List.map_cons, List.sum_cons, ih (fun x hx => h x (List.mem_cons_of_mem a hx)),
      h a (List.mem_cons_self a rest), List.length_cons]
    push_cast
    ring

/-! ### Take-sum monotonicity -/

theorem sum_take_mono (dd : List ℕ) : ∀ i j : ℕ, i ≤ j →
    (dd.take i).sum ≤ (dd.take j).sum := by
  induction dd with
  | nil => intro i j _; simp
  | cons d rest ih =>
    intro i j hij
    cases i with
    | zero => simp
    | succ i2 =>
      cases j with
      | zero => omega
      | succ j2 =>
        rw [List.take_succ_cons, List.take_succ_cons, List.sum_cons, List.sum_cons]
        exact Nat.add_le_add_left (ih i2 j2 (by omega)) d

theorem sum_take_le (dd : List ℕ) (k : ℕ) : (dd.take k).sum ≤ dd.sum := by
  by_cases hk : k ≤ dd.length
  · have h := sum_take_mono dd k dd.length hk
    rwa [List.take_length] at h
  · rw [List.take_of_length_le (by omega)]

/-! ### Set-based views of increment / decrement -/

theorem dec_at_eq_set (dd : List ℕ) : ∀ b : ℕ, dec_at dd b = dd.set b (dd.getD b 0 - 1) := by
  induction dd with
  | nil => intro b; rfl
  | cons d rest ih =>
    intro b
    cases b with
    | zero => rfl
    | succ b2 => rw [dec_at, List.getD_cons_succ, List.set_cons_succ, ih b2]

theorem inc_at_eq_set (dd : List ℕ) : ∀ b : ℕ, inc_at dd b = dd.set b (dd.getD b 0 + 1) := by
  induction dd with
  | nil => intro b; rfl
  | cons d rest ih =>
    intro b
    cases b with
    | zero => rfl
    | succ b2 => rw [inc_at, List.getD_cons_succ, List.set_cons_succ, ih b2]

theorem inc_at_append_zero (l : List ℕ) : inc_at (l ++ [0]) l.length = l ++ [1] := by
  induction l with
  | nil => rfl
  | cons d rest ih => rw [List.cons_append, List.length_cons, inc_at, ih, List.cons_append]

/-! ### Stream-agreement lemma -/

theorem draw_balls_loop_agree (n : ℕ) : ∀ (g1 g2 : ℕ → ℕ) (dd : List ℕ),
    (∀ i, i < n → g1 i = g2 i) →
    (draw_balls_loop g1 dd n).1 = (draw_balls_loop g2 dd n).1 := by
  induction n with
  | zero => intro g1 g2 dd _; rfl
  | succ n2 ih =>
    intro g1 g2 dd h
    rw [draw_balls_loop, draw_balls_loop, h 0 (Nat.succ_pos n2)]
    exact ih (shift g1) (shift g2) _ (fun i hi => h (i + 1) (by omega))

/-! ### Bounds-checked accesses agree with the unchecked model -/

theorem apply_draw_checked_some (dd : List ℕ) (ball : ℕ) :
    apply_draw_checked dd ball = some (apply_draw dd ball) := by
  cases hfb : find_bin dd ball 0 with
  | none =>
    simp only [apply_draw_checked, apply_draw, hfb]
    by_cases hlen : 0 = dd.length
    · simp only [if_pos hlen]
      rw [inc_at_checked, if_pos (by simp)]
    · simp only [if_neg hlen]
      rw [inc_at_checked, if_pos (by omega)]
  | some b =>
    have hblen : b < dd.length := (find_bin_some dd ball 0 b (Nat.zero_le ball) hfb).1
    have hdl : (dec_at dd b).length = dd.length := dec_at_length dd b
    simp only [apply_draw_checked, apply_draw, hfb, dec_at_checked, if_pos hblen]
    by_cases hlen : b + 1 = (dec_at dd b).length
    · simp only [if_pos hlen]
      rw [inc_at_checked, if_pos (by rw [List.length_append]; simp; omega)]
    · simp only [if_neg hlen]
      rw [inc_at_checked, if_pos (by omega)]

theorem draw_balls_checked_loop_some (n : ℕ) : ∀ (g : ℕ → ℕ) (dd : List ℕ),
    draw_balls_checked_loop g dd n = some (draw_balls_loop g dd n) := by
  induction n with
  | zero => intro g dd; rfl
  | succ n2 ih =>
    intro g dd
    simp only [draw_balls_checked_loop, draw_balls_loop, apply_draw_checked_some]
    exact ih (shift g) (apply_draw dd (g 0))

theorem draw_balls_checked_some (g : ℕ → ℕ) (n : ℕ) :
    draw_balls_checked g n = some (draw_balls g n) :=
  draw_balls_checked_loop_some n g []

/-! ### Concrete log-probability evaluations -/

theorem calculate_nil_eq (M : ℕ) : calculate_log_probability [] M = some 0 := by
  rw [calculate_eq_some (by simp [profile_unique])]
  have hcast : ((1 + M - profile_unique [] : ℕ) : ℝ) = 1 + (M : ℝ) := by
    simp [profile_unique]
  simp [profile_draws, profile_log_denom, hcast, lgamma, Real.Gamma_one]

theorem calculate_single_one : calculate_log_probability [1] 1 = some 0 := by
  rw [calculate_eq_some (by simp [profile_unique])]
  have hcast : ((1 + 1 - profile_unique [1] : ℕ) : ℝ) = 1 := by
    simp [profile_unique]
  norm_num [profile_draws, profile_log_denom, profile_unique, hcast, lgamma,
    Real.Gamma_one, Real.Gamma_two]

/-! ### Claim theorems -/

/-- C1: for every profile `dd` and every `M ≥ U` (`U` the sum of `dd`'s
entries), `calculate_log_probability(dd, M)` returns exactly
`lgamma(1+N) − Σ_m [lgamma(1+dd[m-1]) + dd[m-1]·lgamma(1+m)] + lgamma(1+M)
− lgamma(1+M−U) − N·log M`, where `N = Σ_m m·dd[m-1]` is derived from the
profile. -/
theorem C1_log_probability_closed_form (dd : List ℕ) (M : ℕ) (h : spec_U dd ≤ M) :
    calculate_log_probability dd M = some (spec_formula dd M) := by
  have hU : profile_unique dd ≤ M := by rw [← spec_U_eq]; exact h
  have hcast : ((1 + M - profile_unique dd : ℕ) : ℝ) =
      1 + (M : ℝ) - (profile_unique dd : ℝ) := by
    rw [Nat.cast_sub (by omega)]
    push_cast
    ring
  rw [calculate_eq_some hU, spec_formula, spec_N_eq, spec_log_denom_eq, spec_U_eq, hcast]

/-- C1 witness: the closed form holds at `dd = [1, 1]`, `M = 3`. -/
theorem C1_witness : calculate_log_probability [1, 1] 3 = some (spec_formula [1, 1] 3) :=
  C1_log_probability_closed_form [1, 1] 3 (by decide)

/-- C2: for every `M ≥ 1`, every `N ≥ 0` and every random stream of values
in `[0, M)`, the profile produced by `draw_balls` satisfies
`Σ_m m·dd[m-1] = N` and `Σ_m dd[m-1] ≤ M`. -/
theorem C2_draw_conservation (M N : ℕ) (g : ℕ → ℕ) (_hM : 1 ≤ M) (hg : ∀ i, g i < M) :
    spec_N (draw_balls g N).1 = N ∧ spec_U (draw_balls g N).1 ≤ M := by
  constructor
  · rw [spec_N_eq]
    exact draw_balls_draws g N
  · rw [spec_U_eq]
    exact draw_balls_unique g N hg

/-- C2 witness: conservation at `M = 3`, `N = 5`, the all-zero stream. -/
theorem C2_witness :
    spec_N (draw_balls (fun _ => 0) 5).1 = 5 ∧ spec_U (draw_balls (fun _ => 0) 5).1 ≤ 3 :=
  C2_draw_conservation 3 5 (fun _ => 0) (by norm_num) (fun i => by norm_num)

/-- C5: `calculate_log_probability(dd, M)` fails its assertion (modelled as
`none`) iff `M < U`, where `U` is the sum of `dd`'s entries; every call with
`M ≥ U` returns normally. -/
theorem C5_assertion_iff (dd : List ℕ) (M : ℕ) :
    calculate_log_probability dd M = none ↔ M < dd.sum := by
  rw [← profile_unique_eq_sum]
  by_cases h : profile_unique dd ≤ M
  · rw [calculate_eq_some h]
    exact ⟨fun hc => absurd hc (by simp), fun hc => by omega⟩
  · rw [calculate_eq_none (by omega)]
    exact ⟨fun _ => by omega, fun _ => rfl⟩

/-- C6 counterexample: at `M = 0` the log-probability of the empty profile
is NOT exactly `0`: under the IEEE semantics the C program runs with, the
returned expression multiplies `num_draws = 0` by `log(0.0) = -inf` and the
function returns NaN. -/
theorem C6_counterexample :
    calculate_log_probability_fp [] 0 = some FP.nan ∧ FP.nan ≠ FP.fin 0 :=
  ⟨calculate_fp_nil_zero, fun h => FP.noConfusion h⟩

/-- C6 amended: drawing `N = 0` balls yields the empty profile, and the
log-probability of the empty profile is exactly `0` for every `M ≥ 1`
(at `M = 0` the returned double is NaN, not 0). -/
theorem C6_zero_draws (g : ℕ → ℕ) (M : ℕ) (hM : 1 ≤ M) :
    (draw_balls g 0).1 = [] ∧ calculate_log_probability_fp [] M = some (FP.fin 0) := by
  refine ⟨rfl, ?_⟩
  rw [calculate_fp_eq_map hM, calculate_nil_eq M, Option.map_some']

/-- C6 witness: the spec's concrete scenario `M = 100`, `N = 0`. -/
theorem C6_witness :
    (draw_balls (fun _ => 0) 0).1 = [] ∧
      calculate_log_probability_fp [] 100 = some (FP.fin 0) :=
  C6_zero_draws (fun _ => 0) 100 (by norm_num)

/-- C3: a single draw step with random value `r`: if `r ≥ U` (the current
sum of `dd`'s entries) then `dd[0]` is incremented and no entry is
decremented; otherwise, for the least `bin` with `r < dd[0]+...+dd[bin]`
(increasing-multiplicity scan), `dd[bin]` is decremented and `dd[bin+1]`
incremented, the profile being extended by exactly one position when
`bin+1` equals its current length. -/
theorem C3_draw_step (dd : List ℕ) (r : ℕ) :
    (dd.sum ≤ r → apply_draw dd r = spec_new_item dd) ∧
      (∀ bin : ℕ, r < (dd.take (bin + 1)).sum →
        (∀ j, j < bin → (dd.take (j + 1)).sum ≤ r) →
        apply_draw dd r = spec_move dd bin) := by
  constructor
  · intro hU
    have hfb : find_bin dd r 0 = none :=
      (find_bin_none_iff dd r 0 (Nat.zero_le r)).mpr (by omega)
    simp only [apply_draw, hfb]
    cases dd with
    | nil => rfl
    | cons d rest =>
      rw [if_neg (by simp), spec_new_item]
      rfl
  · intro bin hbin hleast
    have hrsum : r < dd.sum := lt_of_lt_of_le hbin (sum_take_le dd (bin + 1))
    have hne : find_bin dd r 0 ≠ none := fun hc =>
      absurd ((find_bin_none_iff dd r 0 (Nat.zero_le r)).mp hc) (by omega)
    cases hfb : find_bin dd r 0 with
    | none => exact absurd hfb hne
    | some b =>
      obtain ⟨hblen, hlo, hhi⟩ := find_bin_some dd r 0 b (Nat.zero_le r) hfb
      have hb : b = bin := by
        rcases Nat.lt_trichotomy b bin with hlt | heq | hgt
        · exact absurd (hleast b hlt) (by omega)
        · exact heq
        · have hmono := sum_take_mono dd (bin + 1) b hgt
          omega
      subst hb
      have hpos : 1 ≤ dd.getD b 0 := find_bin_entry_pos dd r b hfb
      have hdl : (dec_at dd b).length = dd.length := dec_at_length dd b
      simp only [apply_draw, hfb, spec_move, ← dec_at_eq_set]
      by_cases hlen : b + 1 = (dec_at dd b).length
      · rw [if_pos hlen, if_pos (by omega)]
        rw [hlen]
        exact inc_at_append_zero (dec_at dd b)
      · rw [if_neg hlen, if_neg (by omega), inc_at_eq_set]

/-- C3 witness: the new-item case at `dd = []`, `r = 5`, and the move case
at `dd = [1, 1]`, `r = 1` (least bin is `1`). -/
theorem C3_witness :
    apply_draw [] 5 = spec_new_item [] ∧ apply_draw [1, 1] 1 = spec_move [1, 1] 1 :=
  ⟨(C3_draw_step [] 5).1 (by decide), (C3_draw_step [1, 1] 1).2 1 (by decide) (by decide)⟩

/-- C10: no vector access in the drawing procedure is out of bounds: the
single-draw step and the whole `draw_balls` loop, re-run with every
`dd[bin]` access bounds-checked, succeed and return the unchecked result
(the cumulative scan itself only reads below `dd.size()` by its loop
condition, reflected structurally in `find_bin`). -/
theorem C10_access_in_bounds (dd : List ℕ) (ball : ℕ) (g : ℕ → ℕ) (N : ℕ) :
    apply_draw_checked dd ball = some (apply_draw dd ball) ∧
      draw_balls_checked g N = some (draw_balls g N) :=
  ⟨apply_draw_checked_some dd ball, draw_balls_checked_some g N⟩

/-- C4: `monte_carlo_pvalue` computes the reference log-probability, derives
`N = Σ_m m·ref[m-1]`, runs `R` trials of `draw_balls` on one sampler, scores
each trial `0.5` on a `1e-10` tie, `1.0` when the reference is strictly more
probable, `0` otherwise, and returns the accumulator divided by `R`; if every
trial ties, the returned value is exactly `0.5`. -/
theorem C4_pvalue_structure (ref : List ℕ) (M R : ℕ) (g : ℕ → ℕ) (ref_lp : ℝ)
    (hg : ∀ i, g i < M) (href : calculate_log_probability ref M = some ref_lp) :
    monte_carlo_pvalue ref M R g =
      some ((((run_trials g (spec_N ref) R).1).map
          (fun dd => spec_trial_score ref_lp ((calculate_log_probability dd M).getD 0))).sum
        / (R : ℝ)) ∧
      (1 ≤ R →
        (∀ dd ∈ (run_trials g (spec_N ref) R).1, ∀ lp : ℝ,
          calculate_log_probability dd M = some lp → |ref_lp - lp| < 1e-10) →
        monte_carlo_pvalue ref M R g = some 0.5) := by
  have hmain : monte_carlo_pvalue ref M R g =
      some ((((run_trials g (spec_N ref) R).1).map
        (fun dd => spec_trial_score ref_lp ((calculate_log_probability dd M).getD 0))).sum
        / (R : ℝ)) := by
    simp only [monte_carlo_pvalue, href, spec_N_eq]
    rw [pvalue_loop_spec (profile_draws ref 1) ref_lp R g 0 hg]
    simp [zero_add]
  refine ⟨hmain, fun hR htie => ?_⟩
  rw [hmain]
  have hall : ∀ dd ∈ (run_trials g (spec_N ref) R).1,
      spec_trial_score ref_lp ((calculate_log_probability dd M).getD 0) = 0.5 := by
    intro dd hdd
    rw [spec_N_eq] at hdd
    have hU : profile_unique dd ≤ M :=
      run_trials_mem_unique (profile_draws ref 1) R g hg dd hdd
    have hcalc := calculate_eq_some hU
    have hlt := htie dd (by rw [spec_N_eq]; exact hdd) _ hcalc
    rw [hcalc, Option.getD_some, spec_trial_score, if_pos hlt]
  rw [map_sum_all_half _ _ hall, run_trials_length]
  have hR0 : (R : ℝ) ≠ 0 := Nat.cast_ne_zero.mpr (by omega)
  rw [mul_comm, mul_div_assoc, div_self hR0, mul_one]

/-- C4 witness: an all-tie scenario (empty reference profile, `M = 1`,
`R = 1`, zero stream) returns exactly `0.5`. -/
theorem C4_witness : monte_carlo_pvalue [] 1 1 (fun _ => 0) = some 0.5 := by
  refine (C4_pvalue_structure [] 1 1 (fun _ => 0) 0 (fun i => by norm_num)
    (calculate_nil_eq 1)).2 (le_refl 1) ?_
  intro dd hdd lp hlp
  have hdd2 : dd = [] := by
    simpa [run_trials, draw_balls, draw_balls_loop, spec_N] using hdd
  subst hdd2
  rw [calculate_nil_eq 1] at hlp
  injection hlp with h
  rw [← h]
  norm_num

/-- C7 counterexample: a call with `R = 0` is NOT detected as a fatal
precondition violation: at `ref = [1]`, `M = 1`, `R = 0` the operation
returns a value instead of failing. -/
theorem C7_counterexample : monte_carlo_pvalue [1] 1 0 (fun _ => 0) ≠ none := by
  simp only [monte_carlo_pvalue, calculate_single_one, pvalue_loop]
  simp

/-- C7 amended: `monte_carlo_pvalue` performs no check for `R = 0`: whenever
the reference log-probability itself computes, the operation runs zero
trials and silently returns the meaningless quotient `0 / 0` (`NaN` in the
C++ doubles); rejecting `R = 0` is left to the caller. -/
theorem C7_division_by_zero (ref : List ℕ) (M : ℕ) (g : ℕ → ℕ) (ref_lp : ℝ)
    (href : calculate_log_probability ref M = some ref_lp) :
    monte_carlo_pvalue ref M 0 g = some ((0 : ℝ) / (0 : ℝ)) := by
  simp only [monte_carlo_pvalue, href, pvalue_loop]
  norm_num

/-- C7 witness: the silent `0 / 0` return at `ref = [1]`, `M = 1`, `R = 0`. -/
theorem C7_witness : monte_carlo_pvalue [1] 1 0 (fun _ => 0) = some ((0 : ℝ) / (0 : ℝ)) :=
  C7_division_by_zero [1] 1 (fun _ => 0) 0 calculate_single_one

/-- C8: for every reference profile, every `M ≥ U`, every `R ≥ 1` and every
stream of random values in `[0, M)`, the estimated p-value lies in `[0, 1]`. -/
theorem C8_pvalue_unit_interval (ref : List ℕ) (M R : ℕ) (g : ℕ → ℕ)
    (hU : spec_U ref ≤ M) (hR : 1 ≤ R) (hg : ∀ i, g i < M) :
    ∃ v, monte_carlo_pvalue ref M R g = some v ∧ 0 ≤ v ∧ v ≤ 1 := by
  have hU2 : profile_unique ref ≤ M := by rw [← spec_U_eq]; exact hU
  cases hcalc : calculate_log_probability ref M with
  | none =>
    rw [calculate_eq_some hU2] at hcalc
    exact absurd hcalc (by simp)
  | some ref_lp =>
    obtain ⟨s, g2, heq, hlo, hhi⟩ :=
      pvalue_loop_bounds (profile_draws ref 1) ref_lp R g 0 hg
    have hRpos : (0 : ℝ) < (R : ℝ) := by
      exact_mod_cast Nat.lt_of_lt_of_le Nat.zero_lt_one hR
    refine ⟨s / (R : ℝ), ?_, ?_, ?_⟩
    · simp only [monte_carlo_pvalue, hcalc, heq]
    · exact div_nonneg (by linarith) (le_of_lt hRpos)
    · rw [div_le_one hRpos]
      have hz : (0 : ℝ) + (R : ℝ) = (R : ℝ) := zero_add _
      linarith

/-- C8 witness: the p-value at `ref = [1]`, `M = 1`, `R = 1`, zero stream
lies in `[0, 1]`. -/
theorem C8_witness :
    ∃ v, monte_carlo_pvalue [1] 1 1 (fun _ => 0) = some v ∧ 0 ≤ v ∧ v ≤ 1 :=
  C8_pvalue_unit_interval [1] 1 1 (fun _ => 0) (by decide) (le_refl 1) (fun i => by norm_num)

/-- C9: sampling is deterministic in the seed: streams that agree on the
consumed values produce identical profiles, and identical streams give
identical trial sequences and identical p-value results. -/
theorem C9_determinism (g1 g2 : ℕ → ℕ) :
    (∀ N : ℕ, (∀ i, i < N → g1 i = g2 i) → (draw_balls g1 N).1 = (draw_balls g2 N).1) ∧
      ((∀ i, g1 i = g2 i) → ∀ (ref : List ℕ) (M R nd : ℕ),
        run_trials g1 nd R = run_trials g2 nd R ∧
          monte_carlo_pvalue ref M R g1 = monte_carlo_pvalue ref M R g2) := by
  constructor
  · intro N h
    exact draw_balls_loop_agree N g1 g2 [] h
  · intro h ref M R nd
    have hg : g1 = g2 := funext h
    subst hg
    exact ⟨rfl, rfl⟩

/-- C9 witness: two different streams that agree on the two consumed values
produce the same profile. -/
theorem C9_witness :
    (draw_balls (fun i => i % 3) 2).1 =
      (draw_balls (fun i => if i < 2 then i % 3 else 7) 2).1 :=
  (C9_determinism (fun i => i % 3) (fun i => if i < 2 then i % 3 else 7)).1 2
    (fun i hi => by interval_cases i <;> rfl)

end MonteCarlo
